import Mathlib

/-!
Verification of the keyframe-linker partition algebra.

The program keeps, per action, a partition of timeline positions into
linked groups.  A member is a `LinkedFrame` (a frame number plus a
"flipped" flag); Python equality and hashing of `LinkedFrame` are by
`number` only, so a Python `set[LinkedFrame]` behaves as a list of
members with pairwise distinct numbers in which `add` of an
already-present number is a no-op.  We embed a frame set as a
`List LinkedFrame` (in iteration order) and `set.add` as `frameSetAdd`.
Partitions (`frame_sets`) are lists of frame sets.
-/

structure LinkedFrame where
  number : Int
  flipped : Bool
deriving DecidableEq, Repr

abbrev FrameSet := List LinkedFrame
abbrev FrameSets := List FrameSet

/-- Does the frame set contain a member at this frame number?  This is
Python membership of a `LinkedFrame` in a `set[LinkedFrame]`, since
`__eq__` and `__hash__` compare by `number` only. -/
def containsNumber (s : FrameSet) (n : Int) : Bool :=
  s.any (fun f => decide (f.number = n))

/-- Python `frame_set.add(f)`: a no-op when a member with the same
number is already present (`LinkedFrame.__eq__`/`__hash__` use only
`number`), otherwise the new member is inserted. -/
def frameSetAdd (s : FrameSet) (f : LinkedFrame) : FrameSet :=
  if containsNumber s f.number then s else s ++ [f]

/-- One inner sequence of the persisted custom property:
`(position, flag)` pairs, the flag a raw integer coerced by `bool(...)`. -/
abbrev PropEntry := Int × Int

abbrev PropValue := List (List PropEntry)

/-- Decoding of one stored sublist in `get_frame_sets_for_action`:
each `(position, flag)` entry is added to a fresh set as
`LinkedFrame(entry[0], bool(entry[1]))`. -/
def decodeFrameSet (sublist : List PropEntry) : FrameSet :=
  sublist.foldl (fun fs e => frameSetAdd fs ⟨e.1, decide (e.2 ≠ 0)⟩) []

/-- `get_frame_sets_for_action`: read the custom property (absent
decodes to the empty partition) and decode every stored sublist. -/
def get_frame_sets_for_action (prop : Option PropValue) : FrameSets :=
  (prop.getD []).map decodeFrameSet

/-- Serialized form of one frame set, as written by
`set_frame_sets_for_action` (a Python `bool` stored in an id-property
reads back as `0` or `1`). -/
def encodeFrameSet (s : FrameSet) : List PropEntry :=
  s.map (fun f => (f.number, if f.flipped then (1 : Int) else 0))

/-- `set_frame_sets_for_action`: keep only frame sets with more than
one member; when nothing remains, delete the stored property (the
result is `none` whatever was stored before), otherwise store the
serialized list. -/
def set_frame_sets_for_action (_old : Option PropValue) (frame_sets : FrameSets) : Option PropValue :=
  let prop_val := (frame_sets.filter (fun s => decide (1 < s.length))).map encodeFrameSet
  if prop_val.isEmpty then none else some prop_val

/-- `find_linked_frame_set`: the first frame set containing the number. -/
def find_linked_frame_set (frame_sets : FrameSets) (n : Int) : Option FrameSet :=
  frame_sets.find? (fun s => containsNumber s n)

/-- Is the frame set touched by the target numbers?
(`any(frame.number in frame_numbers for frame in frame_set)`). -/
def touchedBy (s : FrameSet) (ns : List Int) : Bool :=
  s.any (fun f => ns.contains f.number)

/-- `find_linked_frame_sets`: all frame sets touched by the numbers. -/
def find_linked_frame_sets (frame_sets : FrameSets) (ns : List Int) : FrameSets :=
  frame_sets.filter (fun s => touchedBy s ns)

/-- `remove_all_in_place(predicate, l)`: delete every element
satisfying the predicate. -/
def remove_all_in_place (p : FrameSet → Bool) (l : FrameSets) : FrameSets :=
  l.filter (fun s => ! p s)

/-- `remove_all_from_frame_set`: for each target number, remove the
member equal (by number) to `LinkedFrame(number)` when present. -/
def remove_all_from_frame_set (frame_set : FrameSet) (frame_numbers : List Int) : FrameSet :=
  frame_numbers.foldl
    (fun s number =>
      if containsNumber s number then s.filter (fun f => decide (f.number ≠ number)) else s)
    frame_set

/-- The fresh set built by `LinkFrames.execute` when no touched set
exists: iterate over the sorted target numbers, adding each with an
alternating flag that starts at `False`. -/
def link_new_set (sortedNumbers : List Int) : FrameSet :=
  (sortedNumbers.foldl
    (fun (acc : FrameSet × Bool) frame_number =>
      (frameSetAdd acc.1 ⟨frame_number, acc.2⟩, ! acc.2))
    ([], false)).1

/-- Adding each target number to a set as `LinkedFrame(number)`
(default `flipped = False`); used by the one-set and merge branches of
`LinkFrames.execute`. -/
def addNumbers (s : FrameSet) (ns : List Int) : FrameSet :=
  ns.foldl (fun acc frame_number => frameSetAdd acc ⟨frame_number, false⟩) s

/-- The union built by the merge branch of `LinkFrames.execute`:
`union_set = union_set.union(found_set)` over all found sets, starting
from the empty set. -/
def unionOfSets (found : FrameSets) : FrameSet :=
  found.foldl (fun acc s => s.foldl frameSetAdd acc) []

/-- `LinkFrames.execute` on the decoded partition, given the selected
frame numbers.  Empty selection leaves the partition alone; otherwise
the three branches on the number of touched sets.  In the one-set
branch the touched set is extended in place, so it keeps its position
in the list; in the merge branch every touched set is removed and the
union (with the new numbers added) is appended. -/
def link_frames (frame_sets : FrameSets) (ns : List Int) : FrameSets :=
  if ns.isEmpty then frame_sets else
  let found := find_linked_frame_sets frame_sets ns
  if found.length = 0 then
    frame_sets ++ [link_new_set (List.insertionSort (· ≤ ·) ns)]
  else if found.length = 1 then
    frame_sets.map (fun s => if touchedBy s ns then addNumbers s ns else s)
  else
    (frame_sets.filter (fun s => ! touchedBy s ns)) ++ [addNumbers (unionOfSets found) ns]

/-- Toggle the first member carrying this number and stop
(`for frame in frame_set: if frame.number == frame_number: ...; break`). -/
def toggle_first (s : FrameSet) (n : Int) : FrameSet :=
  match s with
  | [] => []
  | f :: rest =>
    if f.number = n then ⟨f.number, ! f.flipped⟩ :: rest else f :: toggle_first rest n

/-- One iteration of the flip loop: locate the first frame set
containing the number (`find_linked_frame_set`) and toggle the member
there, counting one flip; when no set contains it, nothing happens. -/
def flip_in_sets (frame_sets : FrameSets) (n : Int) : FrameSets × Nat :=
  match frame_sets with
  | [] => ([], 0)
  | s :: rest =>
    if containsNumber s n then (toggle_first s n :: rest, 1)
    else
      let r := flip_in_sets rest n
      (s :: r.1, r.2)

/-- The loop of `FlipLinkedFrame.execute` over all target numbers,
accumulating the flip count. -/
def flip_frames (frame_sets : FrameSets) (ns : List Int) : FrameSets × Nat :=
  ns.foldl (fun acc n =>
    let r := flip_in_sets acc.1 n
    (r.1, acc.2 + r.2)) (frame_sets, 0)

/-- Outcome of `FlipLinkedFrame.execute`: the final partition, the
flip count, and the property write — `none` here means the operator
did not call `set_frame_sets_for_action` at all. -/
structure FlipResult where
  frame_sets : FrameSets
  flip_count : Nat
  saved : Option (Option PropValue)
deriving Repr

/-- `FlipLinkedFrame.execute` on the decoded partition and resolved
target numbers: run the flip loop, then save only when at least one
flip occurred. -/
def flip_execute (old : Option PropValue) (frame_sets : FrameSets) (ns : List Int) : FlipResult :=
  let r := flip_frames frame_sets ns
  ⟨r.1, r.2, if 0 < r.2 then some (set_frame_sets_for_action old r.1) else none⟩

/-- `UnlinkFrames.execute` on the decoded partition and resolved
target numbers: when at least one touched set exists, remove the
targeted members from every touched set, then delete every set of size
at most one from the whole partition; the boolean records whether the
partition was saved. -/
def unlink_execute (frame_sets : FrameSets) (ns : List Int) : FrameSets × Bool :=
  let found := find_linked_frame_sets frame_sets ns
  if 0 < found.length then
    (remove_all_in_place (fun s => decide (s.length ≤ 1))
      (frame_sets.map (fun s => if touchedBy s ns then remove_all_from_frame_set s ns else s)),
     true)
  else (frame_sets, false)

/-- Trace of the save-pre handler's content propagation: the pastes
performed by the keyframe (action) pass and by the pose pass, each a
`(frame number, flipped flag)` in loop order, and the playhead
position after the handler finishes. -/
structure SyncTrace where
  actionPastes : List (Int × Bool)
  posePastes : List (Int × Bool)
  finalFrame : Int
deriving DecidableEq, Repr

/-- The propagation core of `save_pre_handler`: with no frame sets, or
no set containing the current frame, nothing happens; otherwise the
current member is resolved in the found set and each pass pastes to
every other member with `flipped = current_frame.flipped !=
linked_frame.flipped`, the playhead being restored to the current
frame at the end. -/
def save_pre_sync (frame_sets : FrameSets) (current_frame_number : Int) : Option SyncTrace :=
  if frame_sets.isEmpty then none else
  match find_linked_frame_set frame_sets current_frame_number with
  | none => none
  | some frame_set =>
    match frame_set.find? (fun f => decide (f.number = current_frame_number)) with
    | none => none
    | some current_frame =>
      some
        ⟨(frame_set.filter (fun f => decide (f.number ≠ current_frame_number))).map
            (fun f => (f.number, current_frame.flipped != f.flipped)),
         (frame_set.filter (fun f => decide (f.number ≠ current_frame_number))).map
            (fun f => (f.number, current_frame.flipped != f.flipped)),
         current_frame_number⟩

/-- Frame numbers of a set, in iteration order. -/
def numbersOf (s : FrameSet) : List Int :=
  s.map (fun f => f.number)

/-- A frame set as produced by the program: member numbers are
pairwise distinct (Python set semantics under number-only equality). -/
def NodupNumbers (s : FrameSet) : Prop :=
  (numbersOf s).Nodup

instance (s : FrameSet) : Decidable (NodupNumbers s) := by
  unfold NodupNumbers; infer_instance

/-- The partition invariant: a position appears in at most one group. -/
def DisjointSets (frame_sets : FrameSets) : Prop :=
  frame_sets.Pairwise (fun s t => ∀ f ∈ s, ∀ g ∈ t, f.number ≠ g.number)

instance (fs : FrameSets) : Decidable (DisjointSets fs) := by
  unfold DisjointSets; infer_instance

/-- Well-formed partition: each group is a genuine set over numbers
and the groups are pairwise disjoint over numbers. -/
def WF (frame_sets : FrameSets) : Prop :=
  (∀ s ∈ frame_sets, NodupNumbers s) ∧ DisjointSets frame_sets

instance (fs : FrameSets) : Decidable (WF fs) := by
  unfold WF; infer_instance

/-! ### Basic lemmas about membership by number -/

theorem containsNumber_iff {s : FrameSet} {n : Int} :
    containsNumber s n = true ↔ ∃ f ∈ s, f.number = n := by
  simp [containsNumber]

theorem containsNumber_eq_false_iff {s : FrameSet} {n : Int} :
    containsNumber s n = false ↔ ∀ f ∈ s, f.number ≠ n := by
  simp [containsNumber]

theorem containsNumber_eq_mem_numbersOf {s : FrameSet} {n : Int} :
    containsNumber s n = true ↔ n ∈ numbersOf s := by
  simp [containsNumber, numbersOf]

theorem numbersOf_append (s t : FrameSet) :
    numbersOf (s ++ t) = numbersOf s ++ numbersOf t := by
  simp [numbersOf]

theorem frameSetAdd_of_contains {s : FrameSet} {f : LinkedFrame}
    (h : containsNumber s f.number = true) : frameSetAdd s f = s := by
  simp [frameSetAdd, h]

theorem frameSetAdd_of_not_contains {s : FrameSet} {f : LinkedFrame}
    (h : containsNumber s f.number = false) : frameSetAdd s f = s ++ [f] := by
  simp [frameSetAdd, h]

theorem mem_frameSetAdd_of_mem {s : FrameSet} {g : LinkedFrame} (f : LinkedFrame)
    (h : g ∈ s) : g ∈ frameSetAdd s f := by
  unfold frameSetAdd
  split
  · exact h
  · exact List.mem_append_left _ h

theorem mem_frameSetAdd_elim {s : FrameSet} {f g : LinkedFrame}
    (h : g ∈ frameSetAdd s f) : g ∈ s ∨ g = f := by
  unfold frameSetAdd at h
  split at h
  · exact Or.inl h
  · rcases List.mem_append.mp h with h1 | h1
    · exact Or.inl h1
    · exact Or.inr (List.mem_singleton.mp h1)

theorem containsNumber_frameSetAdd (s : FrameSet) (f : LinkedFrame) (n : Int) :
    containsNumber (frameSetAdd s f) n =
      (containsNumber s n || decide (f.number = n)) := by
  unfold frameSetAdd
  split
  · rename_i h
    rcases Decidable.em (f.number = n) with he | he
    · rw [he] at h
      simp [h]
    · simp [he]
  · simp [containsNumber, List.any_append]

theorem nodupNumbers_frameSetAdd {s : FrameSet} (h : NodupNumbers s)
    (f : LinkedFrame) : NodupNumbers (frameSetAdd s f) := by
  unfold frameSetAdd
  split
  · exact h
  · rename_i hc
    unfold NodupNumbers at h ⊢
    rw [numbersOf_append, List.nodup_append]
    refine ⟨h, by simp [numbersOf], ?_⟩
    intro a ha hb
    have hb' : a = f.number := by simpa [numbersOf] using hb
    rw [hb'] at ha
    exact hc (containsNumber_eq_mem_numbersOf.mpr ha)

/-! ### Folds of set insertions -/

theorem foldl_frameSetAdd_eq_append :
    ∀ (s : FrameSet) (acc : FrameSet), NodupNumbers s →
      (∀ f ∈ s, containsNumber acc f.number = false) →
      s.foldl frameSetAdd acc = acc ++ s := by
  intro s
  induction s with
  | nil => intro acc _ _; simp
  | cons f rest ih =>
    intro acc hnd hfresh
    have hc : containsNumber acc f.number = false := hfresh f (by simp)
    have hnd0 : f.number ∉ numbersOf rest ∧ NodupNumbers rest := by
      unfold NodupNumbers numbersOf at hnd ⊢
      simpa [List.nodup_cons] using hnd
    rw [List.foldl_cons, frameSetAdd_of_not_contains hc,
      ih (acc ++ [f]) hnd0.2 ?fresh, List.append_assoc, List.singleton_append]
    case fresh =>
      intro g hg
      have h1 : containsNumber acc g.number = false := hfresh g (by simp [hg])
      have h2 : ¬ f.number = g.number := by
        intro he
        exact hnd0.1 (he ▸ List.mem_map_of_mem (fun x => x.number) hg)
      simp [containsNumber, List.any_append] at h1 ⊢
      exact ⟨h1, h2⟩

theorem mem_addNumbers_of_mem {s : FrameSet} {g : LinkedFrame} (ns : List Int)
    (h : g ∈ s) : g ∈ addNumbers s ns := by
  induction ns generalizing s with
  | nil => exact h
  | cons n rest ih => exact ih (mem_frameSetAdd_of_mem _ h)

theorem mem_addNumbers_elim {s : FrameSet} {g : LinkedFrame} {ns : List Int}
    (h : g ∈ addNumbers s ns) : g ∈ s ∨ (g.flipped = false ∧ g.number ∈ ns) := by
  induction ns generalizing s with
  | nil => exact Or.inl h
  | cons n rest ih =>
    rcases ih h with h1 | h1
    · rcases mem_frameSetAdd_elim h1 with h2 | h2
      · exact Or.inl h2
      · rw [h2]
        exact Or.inr ⟨rfl, by simp⟩
    · exact Or.inr ⟨h1.1, by simp [h1.2]⟩

theorem containsNumber_addNumbers (s : FrameSet) (ns : List Int) (m : Int) :
    containsNumber (addNumbers s ns) m = (containsNumber s m || ns.contains m) := by
  induction ns generalizing s with
  | nil => simp [addNumbers]
  | cons n rest ih =>
    show containsNumber (addNumbers (frameSetAdd s ⟨n, false⟩) rest) m = _
    rw [ih, containsNumber_frameSetAdd]
    rcases Decidable.em (n = m) with he | he
    · subst he
      simp
    · have he2 : ¬ m = n := fun h => he h.symm
      simp [he, he2]

theorem mem_addNumbers_iff {s : FrameSet} {g : LinkedFrame} {ns : List Int}
    (hnd : ns.Nodup) :
    g ∈ addNumbers s ns ↔
      g ∈ s ∨ (g.flipped = false ∧ g.number ∈ ns ∧ containsNumber s g.number = false) := by
  induction ns generalizing s with
  | nil => simp [addNumbers]
  | cons n rest ih =>
    have hnd0 : n ∉ rest ∧ rest.Nodup := by simpa [List.nodup_cons] using hnd
    show g ∈ addNumbers (frameSetAdd s ⟨n, false⟩) rest ↔ _
    rw [ih hnd0.2]
    unfold frameSetAdd
    split
    · rename_i hc
      constructor
      · rintro (h | h)
        · exact Or.inl h
        · rcases h with ⟨h1, h2, h3⟩
          exact Or.inr ⟨h1, by simp [h2], h3⟩
      · rintro (h | h)
        · exact Or.inl h
        · rcases h with ⟨h1, h2, h3⟩
          rcases List.mem_cons.mp h2 with h4 | h4
          · rw [h4] at h3
            rw [h3] at hc
            simp at hc
          · exact Or.inr ⟨h1, h4, h3⟩
    · rename_i hc
      constructor
      · rintro (h | h)
        · rcases List.mem_append.mp h with h1 | h1
          · exact Or.inl h1
          · have : g = ⟨n, false⟩ := List.mem_singleton.mp h1
            rw [this]
            exact Or.inr ⟨rfl, by simp, by simpa using hc⟩
        · rcases h with ⟨h1, h2, h3⟩
          simp [containsNumber, List.any_append] at h3
          exact Or.inr ⟨h1, by simp [h2], containsNumber_eq_false_iff.mpr h3.1⟩
      · rintro (h | h)
        · exact Or.inl (List.mem_append_left _ h)
        · rcases h with ⟨h1, h2, h3⟩
          rcases List.mem_cons.mp h2 with h4 | h4
          · refine Or.inl (List.mem_append_right _ ?_)
            have : g = ⟨n, false⟩ := by
              cases g
              simp_all
            simp [this]
          · refine Or.inr ⟨h1, h4, ?_⟩
            simp [containsNumber, List.any_append]
            refine ⟨containsNumber_eq_false_iff.mp h3, ?_⟩
            intro he
            exact absurd (he ▸ h4) hnd0.1

/-! ### Touched sets, removal, union -/

theorem containsNumber_append (s t : FrameSet) (n : Int) :
    containsNumber (s ++ t) n = (containsNumber s n || containsNumber t n) := by
  simp [containsNumber, List.any_append]

theorem touchedBy_iff {s : FrameSet} {ns : List Int} :
    touchedBy s ns = true ↔ ∃ f ∈ s, f.number ∈ ns := by
  simp [touchedBy]

theorem touchedBy_eq_false_iff {s : FrameSet} {ns : List Int} :
    touchedBy s ns = false ↔ ∀ f ∈ s, f.number ∉ ns := by
  simp [touchedBy]

theorem remove_all_from_frame_set_eq (s : FrameSet) (ns : List Int) :
    remove_all_from_frame_set s ns = s.filter (fun f => ! ns.contains f.number) := by
  induction ns generalizing s with
  | nil => simp [remove_all_from_frame_set]
  | cons n rest ih =>
    have hstep : (if containsNumber s n then s.filter (fun f => decide (f.number ≠ n)) else s)
        = s.filter (fun f => decide (f.number ≠ n)) := by
      split
      · rfl
      · rename_i hc
        refine (List.filter_eq_self.mpr ?_).symm
        intro f hf
        have := containsNumber_eq_false_iff.mp (by simpa using hc) f hf
        simpa using this
    have hcons : remove_all_from_frame_set s (n :: rest)
        = remove_all_from_frame_set
            (if containsNumber s n then s.filter (fun f => decide (f.number ≠ n)) else s) rest :=
      rfl
    rw [hcons, hstep, ih, List.filter_filter]
    refine List.filter_congr ?_
    intro f _
    rcases Decidable.em (f.number = n) with he | he
    · simp [he]
    · have he2 : ¬ n = f.number := fun h => he h.symm
      simp [he, he2]

theorem mem_foldl_frameSetAdd_elim :
    ∀ (s acc : FrameSet) (g : LinkedFrame), g ∈ s.foldl frameSetAdd acc → g ∈ acc ∨ g ∈ s := by
  intro s
  induction s with
  | nil =>
    intro acc g h
    exact Or.inl h
  | cons f rest ih =>
    intro acc g h
    rcases ih _ g h with h1 | h1
    · rcases mem_frameSetAdd_elim h1 with h2 | h2
      · exact Or.inl h2
      · exact Or.inr (by simp [h2])
    · exact Or.inr (by simp [h1])

theorem mem_unionOfSets_elim {found : FrameSets} {g : LinkedFrame}
    (h : g ∈ unionOfSets found) : ∃ s ∈ found, g ∈ s := by
  suffices haux : ∀ (l : FrameSets) (acc : FrameSet), g ∈ l.foldl (fun acc s => s.foldl frameSetAdd acc) acc →
      g ∈ acc ∨ ∃ s ∈ l, g ∈ s by
    rcases haux found [] h with h1 | h1
    · cases h1
    · exact h1
  intro l
  induction l with
  | nil =>
    intro acc h0
    exact Or.inl h0
  | cons s rest ih =>
    intro acc h0
    rcases ih _ h0 with h1 | h1
    · rcases mem_foldl_frameSetAdd_elim s acc g h1 with h2 | h2
      · exact Or.inl h2
      · exact Or.inr ⟨s, by simp, h2⟩
    · rcases h1 with ⟨t, ht, hgt⟩
      exact Or.inr ⟨t, by simp [ht], hgt⟩

theorem unionOfSets_eq_flatten {found : FrameSets}
    (h1 : ∀ s ∈ found, NodupNumbers s)
    (h2 : found.Pairwise (fun s t => ∀ f ∈ s, ∀ g ∈ t, f.number ≠ g.number)) :
    unionOfSets found = found.flatten := by
  suffices haux : ∀ (l : FrameSets) (acc : FrameSet),
      (∀ s ∈ l, NodupNumbers s) →
      l.Pairwise (fun s t => ∀ f ∈ s, ∀ g ∈ t, f.number ≠ g.number) →
      (∀ s ∈ l, ∀ f ∈ s, containsNumber acc f.number = false) →
      l.foldl (fun acc s => s.foldl frameSetAdd acc) acc = acc ++ l.flatten by
    simpa using haux found [] h1 h2 (by simp [containsNumber])
  intro l
  induction l with
  | nil =>
    intro acc _ _ _
    simp
  | cons s rest ih =>
    intro acc hnd hpw hfresh
    have hs : s.foldl frameSetAdd acc = acc ++ s :=
      foldl_frameSetAdd_eq_append s acc (hnd s (by simp)) (hfresh s (by simp))
    rw [List.foldl_cons, hs, ih (acc ++ s) (fun t ht => hnd t (by simp [ht]))
      (List.pairwise_cons.mp hpw).2 ?fresh, List.flatten_cons, List.append_assoc]
    case fresh =>
      intro t ht f hf
      rw [containsNumber_append]
      have ha : containsNumber acc f.number = false := hfresh t (by simp [ht]) f hf
      have hb : containsNumber s f.number = false := by
        rw [containsNumber_eq_false_iff]
        intro g hg he
        exact (List.pairwise_cons.mp hpw).1 t ht g hg f hf (by rw [he])
      simp [ha, hb]

theorem find_linked_frame_set_eq {frame_sets : FrameSets} {G : FrameSet} {t : Int}
    (hdisj : DisjointSets frame_sets) (hG : G ∈ frame_sets)
    (ht : containsNumber G t = true) :
    find_linked_frame_set frame_sets t = some G := by
  induction frame_sets with
  | nil => cases hG
  | cons s rest ih =>
    rcases List.mem_cons.mp hG with h | h
    · subst h
      unfold find_linked_frame_set
      exact List.find?_cons_of_pos rest ht
    · have hdisj0 : DisjointSets rest := (List.pairwise_cons.mp hdisj).2
      have hsG : ∀ f ∈ s, ∀ g ∈ G, f.number ≠ g.number :=
        (List.pairwise_cons.mp hdisj).1 G h
      have hs : containsNumber s t = false := by
        rw [containsNumber_eq_false_iff]
        intro f hf he
        rcases containsNumber_iff.mp ht with ⟨g, hg, hgn⟩
        exact hsG f hf g hg (he.trans hgn.symm)
      unfold find_linked_frame_set at ih ⊢
      have hstep : List.find? (fun u => containsNumber u t) (s :: rest)
          = List.find? (fun u => containsNumber u t) rest := by
        apply List.find?_cons_of_neg
        simp [hs]
      rw [hstep]
      exact ih hdisj0 h

/-! ### The alternating set built by the zero-touched-sets branch -/

/-- The list of members `(n, flag)` obtained by walking the given
numbers with an alternating flag starting at `b`.  Used only to state
what `link_new_set` computes. -/
def altList (b : Bool) : List Int → FrameSet
  | [] => []
  | n :: rest => ⟨n, b⟩ :: altList (! b) rest

theorem link_new_set_aux :
    ∀ (l : List Int) (acc : FrameSet) (b : Bool), l.Nodup →
      (∀ n ∈ l, containsNumber acc n = false) →
      (l.foldl (fun (acc : FrameSet × Bool) frame_number =>
          (frameSetAdd acc.1 ⟨frame_number, acc.2⟩, ! acc.2)) (acc, b)).1
        = acc ++ altList b l := by
  intro l
  induction l with
  | nil =>
    intro acc b _ _
    simp [altList]
  | cons n rest ih =>
    intro acc b hnd hfresh
    have hc : containsNumber acc n = false := hfresh n (by simp)
    have hnd0 : n ∉ rest ∧ rest.Nodup := by simpa [List.nodup_cons] using hnd
    have hfresh2 : ∀ m ∈ rest, containsNumber (acc ++ [⟨n, b⟩]) m = false := by
      intro m hm
      have h1 : containsNumber acc m = false := hfresh m (by simp [hm])
      have h2 : ¬ n = m := fun he => hnd0.1 (he ▸ hm)
      have h3 : containsNumber [⟨n, b⟩] m = false := by simp [containsNumber, h2]
      rw [containsNumber_append, h1, h3]
      rfl
    have hmain := ih (acc ++ [⟨n, b⟩]) (! b) hnd0.2 hfresh2
    have hcons : (List.foldl (fun (a : FrameSet × Bool) frame_number =>
          (frameSetAdd a.1 ⟨frame_number, a.2⟩, ! a.2)) (acc, b) (n :: rest))
        = (List.foldl (fun (a : FrameSet × Bool) frame_number =>
          (frameSetAdd a.1 ⟨frame_number, a.2⟩, ! a.2)) (frameSetAdd acc ⟨n, b⟩, ! b) rest) :=
      rfl
    have hinit : ((frameSetAdd acc ⟨n, b⟩ : FrameSet), ! b)
        = ((acc ++ [⟨n, b⟩] : FrameSet), ! b) := by
      rw [frameSetAdd_of_not_contains hc]
    rw [hcons, hinit, hmain]
    simp [altList]

theorem link_new_set_eq {l : List Int} (h : l.Nodup) :
    link_new_set l = altList false l := by
  simpa using link_new_set_aux l [] false h (fun n _ => by simp [containsNumber])

theorem altList_map_number : ∀ (b : Bool) (l : List Int),
    (altList b l).map (fun f => f.number) = l := by
  intro b l
  induction l generalizing b with
  | nil => simp [altList]
  | cons n rest ih => simp [altList, ih]

theorem altList_length (b : Bool) (l : List Int) : (altList b l).length = l.length := by
  have := altList_map_number b l
  have h2 := congrArg List.length this
  simpa using h2

theorem altList_get_flipped : ∀ (l : List Int) (b : Bool) (i : Nat)
    (h : i < (altList b l).length),
    ((altList b l).get ⟨i, h⟩).flipped = (b != decide (i % 2 = 1)) := by
  intro l
  induction l with
  | nil =>
    intro b i h
    simp [altList] at h
  | cons n rest ih =>
    intro b i h
    match i with
    | 0 => simp [altList]
    | Nat.succ j =>
      have hj : j < (altList (! b) rest).length := by
        simpa [altList] using h
      have hstep : ((altList b (n :: rest)).get ⟨j + 1, h⟩)
          = ((altList (! b) rest).get ⟨j, hj⟩) := rfl
      rw [hstep, ih (! b) j hj]
      rcases Nat.mod_two_eq_zero_or_one j with hp | hp
      · have h1 : (j + 1) % 2 = 1 := by omega
        rw [hp, h1]
        cases b <;> rfl
      · have h1 : (j + 1) % 2 = 0 := by omega
        rw [hp, h1]
        cases b <;> rfl

/-! ### The three branches of link -/

theorem find_linked_frame_sets_eq_nil_iff {frame_sets : FrameSets} {ns : List Int} :
    find_linked_frame_sets frame_sets ns = [] ↔ ∀ s ∈ frame_sets, touchedBy s ns = false := by
  unfold find_linked_frame_sets
  rw [List.filter_eq_nil_iff]
  constructor
  · intro h s hs
    simpa using h s hs
  · intro h s hs
    simp [h s hs]

theorem link_frames_zero {frame_sets : FrameSets} {ns : List Int} (hne : ns ≠ [])
    (h0 : find_linked_frame_sets frame_sets ns = []) :
    link_frames frame_sets ns
      = frame_sets ++ [link_new_set (List.insertionSort (· ≤ ·) ns)] := by
  unfold link_frames
  simp [h0, hne]

theorem link_frames_one {frame_sets : FrameSets} {ns : List Int} (hne : ns ≠ [])
    (h1 : (find_linked_frame_sets frame_sets ns).length = 1) :
    link_frames frame_sets ns
      = frame_sets.map (fun s => if touchedBy s ns then addNumbers s ns else s) := by
  unfold link_frames
  simp [h1, hne]

theorem link_frames_merge {frame_sets : FrameSets} {ns : List Int} (hne : ns ≠ [])
    (h2 : 2 ≤ (find_linked_frame_sets frame_sets ns).length) :
    link_frames frame_sets ns
      = (frame_sets.filter (fun s => ! touchedBy s ns))
          ++ [addNumbers (unionOfSets (find_linked_frame_sets frame_sets ns)) ns] := by
  unfold link_frames
  have ha : (find_linked_frame_sets frame_sets ns).length ≠ 0 := by omega
  have hb : (find_linked_frame_sets frame_sets ns).length ≠ 1 := by omega
  simp [ha, hb, hne]

/-! ### Flip characterization -/

/-- What the flip loop does to one member for one target number. -/
def toggleNum (n : Int) (f : LinkedFrame) : LinkedFrame :=
  if f.number = n then ⟨f.number, ! f.flipped⟩ else f

/-- What the whole flip loop does to one member: toggle exactly the
members whose number is among the targets. -/
def toggleIn (ns : List Int) (f : LinkedFrame) : LinkedFrame :=
  if ns.contains f.number then ⟨f.number, ! f.flipped⟩ else f

theorem map_toggleNum_id {s : FrameSet} {n : Int}
    (h : ∀ f ∈ s, f.number ≠ n) : s.map (toggleNum n) = s := by
  have h2 : ∀ f ∈ s, toggleNum n f = (id f : LinkedFrame) := by
    intro f hf
    simp [toggleNum, h f hf]
  rw [List.map_congr_left h2, List.map_id]

theorem toggle_first_eq {s : FrameSet} (n : Int) (h : NodupNumbers s) :
    toggle_first s n = s.map (toggleNum n) := by
  induction s with
  | nil => rfl
  | cons f rest ih =>
    have hnd0 : f.number ∉ numbersOf rest ∧ NodupNumbers rest := by
      unfold NodupNumbers numbersOf at h ⊢
      simpa [List.nodup_cons] using h
    unfold toggle_first
    split
    · rename_i he
      have hrest : rest.map (toggleNum n) = rest := by
        apply map_toggleNum_id
        intro g hg hgn
        exact hnd0.1 (by
          rw [he, ← hgn]
          exact List.mem_map_of_mem (fun x => x.number) hg)
      simp [toggleNum, he, hrest]
    · rename_i he
      simp [toggleNum, he, ih hnd0.2]

theorem number_toggleNum (n : Int) (f : LinkedFrame) :
    (toggleNum n f).number = f.number := by
  unfold toggleNum
  split <;> rfl

theorem numbersOf_map_toggleNum (s : FrameSet) (n : Int) :
    numbersOf (s.map (toggleNum n)) = numbersOf s := by
  unfold numbersOf
  rw [List.map_map]
  refine List.map_congr_left ?_
  intro f _
  exact number_toggleNum n f

theorem containsNumber_map_toggleNum (s : FrameSet) (n m : Int) :
    containsNumber (s.map (toggleNum n)) m = containsNumber s m := by
  rcases hb : containsNumber s m with hf | ht
  · rw [← Bool.not_eq_true]
    intro hcontra
    have h1 := containsNumber_eq_mem_numbersOf.mp hcontra
    rw [numbersOf_map_toggleNum] at h1
    rw [containsNumber_eq_mem_numbersOf.mpr h1] at hb
    cases hb
  · exact containsNumber_eq_mem_numbersOf.mpr
      (by rw [numbersOf_map_toggleNum]
          exact containsNumber_eq_mem_numbersOf.mp hb)

theorem flip_in_sets_eq {frame_sets : FrameSets} {n : Int}
    (h1 : ∀ s ∈ frame_sets, NodupNumbers s) (h2 : DisjointSets frame_sets) :
    flip_in_sets frame_sets n
      = (frame_sets.map (fun s => s.map (toggleNum n)),
         if frame_sets.any (fun s => containsNumber s n) then 1 else 0) := by
  induction frame_sets with
  | nil => rfl
  | cons s rest ih =>
    unfold flip_in_sets
    split
    · rename_i hc
      have hrest : rest.map (fun t => t.map (toggleNum n)) = rest := by
        have hid : ∀ t ∈ rest, t.map (toggleNum n) = t := by
          intro t ht
          apply map_toggleNum_id
          intro g hg he
          rcases containsNumber_iff.mp hc with ⟨f, hf, hfn⟩
          exact (List.pairwise_cons.mp h2).1 t ht f hf g hg (hfn.trans he.symm)
        calc rest.map (fun t => t.map (toggleNum n))
            = rest.map id := List.map_congr_left (fun t ht => hid t ht)
          _ = rest := List.map_id rest
      rw [toggle_first_eq n (h1 s (by simp))]
      simp [hc, hrest]
    · rename_i hc
      have hbc : containsNumber s n = false := by simpa using hc
      have hsid : s.map (toggleNum n) = s := by
        apply map_toggleNum_id
        intro f hf he
        rw [containsNumber_eq_false_iff] at hbc
        exact hbc f hf he
      rw [ih (fun t ht => h1 t (by simp [ht])) (List.pairwise_cons.mp h2).2]
      simp [hbc, hsid]

theorem nodupNumbers_map_toggleNum {s : FrameSet} (n : Int)
    (h : NodupNumbers s) : NodupNumbers (s.map (toggleNum n)) := by
  unfold NodupNumbers at h ⊢
  rw [numbersOf_map_toggleNum]
  exact h

theorem disjointSets_map_toggleNum {frame_sets : FrameSets} (n : Int)
    (h : DisjointSets frame_sets) :
    DisjointSets (frame_sets.map (fun s => s.map (toggleNum n))) := by
  unfold DisjointSets at h ⊢
  rw [List.pairwise_map]
  refine h.imp ?_
  intro s t hst a ha b hb
  rcases List.mem_map.mp ha with ⟨f, hf, hfa⟩
  rcases List.mem_map.mp hb with ⟨g, hg, hgb⟩
  rw [← hfa, ← hgb, number_toggleNum, number_toggleNum]
  exact hst f hf g hg

theorem any_containsNumber_map_toggleNum (frame_sets : FrameSets) (n m : Int) :
    (frame_sets.map (fun s => s.map (toggleNum n))).any (fun s => containsNumber s m)
      = frame_sets.any (fun s => containsNumber s m) := by
  induction frame_sets with
  | nil => rfl
  | cons s rest ih =>
    simp only [List.map_cons, List.any_cons, ih, containsNumber_map_toggleNum]

theorem toggleIn_nil (f : LinkedFrame) : toggleIn [] f = f := by
  simp [toggleIn]

theorem toggleIn_comp {n : Int} {rest : List Int} (h : n ∉ rest) (f : LinkedFrame) :
    toggleIn rest (toggleNum n f) = toggleIn (n :: rest) f := by
  unfold toggleIn toggleNum
  rcases Decidable.em (f.number = n) with he | he
  · simp [he, h]
  · have he2 : ¬ n = f.number := fun hx => he hx.symm
    rcases Decidable.em (f.number ∈ rest) with hm | hm
    · simp [he, he2, hm]
    · simp [he, he2, hm]

theorem flip_frames_shift : ∀ (ns : List Int) (frame_sets : FrameSets) (c : Nat),
    ns.foldl (fun acc n =>
        let r := flip_in_sets acc.1 n
        (r.1, acc.2 + r.2)) (frame_sets, c)
      = ((flip_frames frame_sets ns).1, c + (flip_frames frame_sets ns).2) := by
  intro ns
  induction ns with
  | nil =>
    intro fs c
    simp [flip_frames]
  | cons n rest ih =>
    intro fs c
    have e1 : (n :: rest).foldl (fun acc m =>
          let r := flip_in_sets acc.1 m
          (r.1, acc.2 + r.2)) (fs, c)
        = rest.foldl (fun acc m =>
          let r := flip_in_sets acc.1 m
          (r.1, acc.2 + r.2)) ((flip_in_sets fs n).1, c + (flip_in_sets fs n).2) := rfl
    have e2 : flip_frames fs (n :: rest)
        = rest.foldl (fun acc m =>
          let r := flip_in_sets acc.1 m
          (r.1, acc.2 + r.2)) ((flip_in_sets fs n).1, 0 + (flip_in_sets fs n).2) := rfl
    rw [e1, e2, ih _ (c + (flip_in_sets fs n).2), ih _ (0 + (flip_in_sets fs n).2)]
    refine Prod.ext rfl ?_
    show c + (flip_in_sets fs n).2 + _ = _
    omega

theorem flip_frames_eq {frame_sets : FrameSets} {ns : List Int}
    (h1 : ∀ s ∈ frame_sets, NodupNumbers s) (h2 : DisjointSets frame_sets)
    (hnd : ns.Nodup) :
    flip_frames frame_sets ns
      = (frame_sets.map (fun s => s.map (toggleIn ns)),
         (ns.filter (fun n => frame_sets.any (fun s => containsNumber s n))).length) := by
  induction ns generalizing frame_sets with
  | nil =>
    have hid : frame_sets.map (fun s => s.map (toggleIn [])) = frame_sets := by
      have hpt : ∀ s ∈ frame_sets, s.map (toggleIn []) = (id s : FrameSet) := by
        intro s _
        have : ∀ f ∈ s, toggleIn [] f = (id f : LinkedFrame) := fun f _ => toggleIn_nil f
        rw [List.map_congr_left this, List.map_id]
        rfl
      rw [List.map_congr_left hpt, List.map_id]
    rw [hid]
    rfl
  | cons n rest ih =>
    have hnd0 : n ∉ rest ∧ rest.Nodup := by simpa [List.nodup_cons] using hnd
    have hfis := @flip_in_sets_eq frame_sets n h1 h2
    have hcons : flip_frames frame_sets (n :: rest)
        = rest.foldl (fun acc m =>
            let r := flip_in_sets acc.1 m
            (r.1, acc.2 + r.2))
          ((flip_in_sets frame_sets n).1, 0 + (flip_in_sets frame_sets n).2) := rfl
    rw [hcons, flip_frames_shift, hfis]
    have hr1nodup : ∀ s ∈ frame_sets.map (fun s => s.map (toggleNum n)), NodupNumbers s := by
      intro s hs
      rcases List.mem_map.mp hs with ⟨t, ht, hts⟩
      rw [← hts]
      exact nodupNumbers_map_toggleNum n (h1 t ht)
    have hr1disj : DisjointSets (frame_sets.map (fun s => s.map (toggleNum n))) :=
      disjointSets_map_toggleNum n h2
    rw [ih hr1nodup hr1disj hnd0.2]
    refine Prod.ext ?_ ?_
    · show (frame_sets.map (fun s => s.map (toggleNum n))).map (fun s => s.map (toggleIn rest))
        = frame_sets.map (fun s => s.map (toggleIn (n :: rest)))
      rw [List.map_map]
      refine List.map_congr_left ?_
      intro s _
      show (s.map (toggleNum n)).map (toggleIn rest) = s.map (toggleIn (n :: rest))
      rw [List.map_map]
      refine List.map_congr_left ?_
      intro f _
      exact toggleIn_comp hnd0.1 f
    · show (0 + if frame_sets.any (fun s => containsNumber s n) then 1 else 0) + _ = _
      have hfilt : ∀ m ∈ rest,
          ((frame_sets.map (fun s => s.map (toggleNum n))).any (fun s => containsNumber s m))
            = frame_sets.any (fun s => containsNumber s m) :=
        fun m _ => any_containsNumber_map_toggleNum frame_sets n m
      rw [List.filter_congr hfilt]
      rcases hany : frame_sets.any (fun s => containsNumber s n) with hf | ht
      · simp [List.filter_cons, hany]
      · simp [List.filter_cons, hany]
        omega

/-! ### Codec lemmas -/

theorem decode_encode_aux :
    ∀ (s acc : FrameSet), NodupNumbers s →
      (∀ f ∈ s, containsNumber acc f.number = false) →
      (encodeFrameSet s).foldl (fun fs e => frameSetAdd fs ⟨e.1, decide (e.2 ≠ 0)⟩) acc
        = acc ++ s := by
  intro s
  induction s with
  | nil =>
    intro acc _ _
    simp [encodeFrameSet]
  | cons f rest ih =>
    intro acc hnd hfresh
    have hc : containsNumber acc f.number = false := hfresh f (by simp)
    have hnd0 : f.number ∉ numbersOf rest ∧ NodupNumbers rest := by
      unfold NodupNumbers numbersOf at hnd ⊢
      simpa [List.nodup_cons] using hnd
    have hflag : (⟨f.number, decide ((if f.flipped then (1 : Int) else 0) ≠ 0)⟩ : LinkedFrame) = f := by
      cases f with
      | mk fn fl => cases fl <;> rfl
    have hstep : (encodeFrameSet (f :: rest)).foldl
          (fun fs e => frameSetAdd fs ⟨e.1, decide (e.2 ≠ 0)⟩) acc
        = (encodeFrameSet rest).foldl
          (fun fs e => frameSetAdd fs ⟨e.1, decide ((e.2 : Int) ≠ 0)⟩)
          (frameSetAdd acc ⟨f.number, decide ((if f.flipped then (1 : Int) else 0) ≠ 0)⟩) := rfl
    rw [hstep, hflag, frameSetAdd_of_not_contains hc, ih (acc ++ [f]) hnd0.2 ?fresh,
      List.append_assoc, List.singleton_append]
    case fresh =>
      intro g hg
      have h1 : containsNumber acc g.number = false := hfresh g (by simp [hg])
      have h2 : ¬ f.number = g.number := by
        intro he
        exact hnd0.1 (he ▸ List.mem_map_of_mem (fun x => x.number) hg)
      have h3 : containsNumber [f] g.number = false := by simp [containsNumber, h2]
      rw [containsNumber_append, h1, h3]
      rfl

theorem decodeFrameSet_encodeFrameSet {s : FrameSet} (h : NodupNumbers s) :
    decodeFrameSet (encodeFrameSet s) = s := by
  have := decode_encode_aux s [] h (fun f _ => by simp [containsNumber])
  simpa [decodeFrameSet] using this

theorem filter_number_eq_nil {s : FrameSet} {p : Int}
    (h : containsNumber s p = false) :
    s.filter (fun f => decide (f.number = p)) = [] := by
  rw [List.filter_eq_nil_iff]
  intro f hf
  have := containsNumber_eq_false_iff.mp h f hf
  simpa using this

theorem decode_filter_of_contains :
    ∀ (l : List PropEntry) (acc : FrameSet) (p : Int),
      containsNumber acc p = true →
      (l.foldl (fun fs e => frameSetAdd fs ⟨e.1, decide (e.2 ≠ 0)⟩) acc).filter
          (fun f => decide (f.number = p))
        = acc.filter (fun f => decide (f.number = p)) := by
  intro l
  induction l with
  | nil =>
    intro acc p _
    rfl
  | cons e rest ih =>
    intro acc p hc
    have hstep : ((e :: rest).foldl (fun fs x => frameSetAdd fs ⟨x.1, decide (x.2 ≠ 0)⟩) acc)
        = rest.foldl (fun fs x => frameSetAdd fs ⟨x.1, decide (x.2 ≠ 0)⟩)
            (frameSetAdd acc ⟨e.1, decide (e.2 ≠ 0)⟩) := rfl
    rw [hstep]
    cases hfa : containsNumber acc e.1 with
    | true =>
      rw [frameSetAdd_of_contains hfa]
      exact ih acc p hc
    | false =>
      rw [frameSetAdd_of_not_contains hfa]
      have hne : ¬ e.1 = p := by
        intro he
        rw [he, hc] at hfa
        simp at hfa
      have hcontains : containsNumber (acc ++ [⟨e.1, decide (e.2 ≠ 0)⟩]) p = true := by
        rw [containsNumber_append, hc]
        rfl
      rw [ih _ p hcontains, List.filter_append]
      have hsing : ([(⟨e.1, decide (e.2 ≠ 0)⟩ : LinkedFrame)].filter
          (fun f => decide (f.number = p))) = [] := by
        simp [hne]
      rw [hsing, List.append_nil]

theorem decode_filter_of_find :
    ∀ (l : List PropEntry) (acc : FrameSet) (p : Int) (e₀ : PropEntry),
      containsNumber acc p = false →
      l.find? (fun e => decide (e.1 = p)) = some e₀ →
      (l.foldl (fun fs e => frameSetAdd fs ⟨e.1, decide (e.2 ≠ 0)⟩) acc).filter
          (fun f => decide (f.number = p))
        = [⟨p, decide (e₀.2 ≠ 0)⟩] := by
  intro l
  induction l with
  | nil =>
    intro acc p e₀ _ hfind
    cases hfind
  | cons e rest ih =>
    intro acc p e₀ hc hfind
    have hstep : ((e :: rest).foldl (fun fs x => frameSetAdd fs ⟨x.1, decide (x.2 ≠ 0)⟩) acc)
        = rest.foldl (fun fs x => frameSetAdd fs ⟨x.1, decide (x.2 ≠ 0)⟩)
            (frameSetAdd acc ⟨e.1, decide (e.2 ≠ 0)⟩) := rfl
    rcases Decidable.em (e.1 = p) with he | he
    · have he₀ : e₀ = e := by
        have : (e :: rest).find? (fun x => decide (x.1 = p)) = some e := by
          apply List.find?_cons_of_pos
          simp [he]
        rw [this] at hfind
        exact (Option.some_inj.mp hfind).symm
      have hnc : containsNumber acc e.1 = false := by
        rw [he]
        exact hc
      have hcontains : containsNumber (acc ++ [⟨e.1, decide (e.2 ≠ 0)⟩]) p = true := by
        rw [containsNumber_append]
        have : containsNumber [(⟨e.1, decide (e.2 ≠ 0)⟩ : LinkedFrame)] p = true := by
          simp [containsNumber, he]
        rw [this, Bool.or_true]
      rw [hstep, frameSetAdd_of_not_contains hnc, decode_filter_of_contains rest _ p hcontains,
        List.filter_append, filter_number_eq_nil hc, he₀]
      simp [he]
    · have hfind2 : rest.find? (fun x => decide (x.1 = p)) = some e₀ := by
        have hne : (e :: rest).find? (fun x => decide (x.1 = p))
            = rest.find? (fun x => decide (x.1 = p)) := by
          apply List.find?_cons_of_neg
          simp [he]
        rw [← hne, hfind]
      have hc2 : containsNumber (frameSetAdd acc ⟨e.1, decide (e.2 ≠ 0)⟩) p = false := by
        rw [containsNumber_frameSetAdd, hc]
        simp [he]
      rw [hstep]
      exact ih _ p e₀ hc2 hfind2

theorem filter_number_eq_singleton {G : FrameSet} {m : LinkedFrame}
    (h : NodupNumbers G) (hm : m ∈ G) :
    G.filter (fun f => decide (f.number = m.number)) = [m] := by
  induction G with
  | nil => cases hm
  | cons f rest ih =>
    have hnd0 : f.number ∉ numbersOf rest ∧ NodupNumbers rest := by
      unfold NodupNumbers numbersOf at h ⊢
      simpa [List.nodup_cons] using h
    rcases List.mem_cons.mp hm with he | he
    · subst he
      have hrest : rest.filter (fun f => decide (f.number = m.number)) = [] := by
        rw [List.filter_eq_nil_iff]
        intro g hg
        simp only [decide_eq_true_eq]
        intro hgm
        exact hnd0.1 (hgm ▸ List.mem_map_of_mem (fun x => x.number) hg)
      rw [List.filter_cons_of_pos (by simp), hrest]
    · have hfm : ¬ f.number = m.number := by
        intro hx
        exact hnd0.1 (hx ▸ List.mem_map_of_mem (fun x => x.number) he)
      rw [List.filter_cons_of_neg (by simp [hfm])]
      exact ih hnd0.2 he

/-! ### Claims -/

/-- C1: for a well-formed partition, a group `G` containing the
trigger position `t`, the save-pre sync pastes to every member of `G`
other than the trigger exactly once per content channel (keyframe pass
and pose pass), each paste with mirror flag equal to the XOR of the
trigger member's flag and the target member's flag, and the playhead
ends back at `t`. -/
theorem c1_sync_propagation (frame_sets : FrameSets) (G : FrameSet) (t : Int)
    (hwf : WF frame_sets) (hG : G ∈ frame_sets) (ht : containsNumber G t = true) :
    ∃ cf ∈ G, cf.number = t ∧
      save_pre_sync frame_sets t = some
        ⟨(G.filter (fun f => decide (f.number ≠ t))).map
            (fun f => (f.number, cf.flipped != f.flipped)),
         (G.filter (fun f => decide (f.number ≠ t))).map
            (fun f => (f.number, cf.flipped != f.flipped)),
         t⟩ ∧
      ∀ m ∈ G, m.number ≠ t →
        ((G.filter (fun f => decide (f.number ≠ t))).map
            (fun f => (f.number, cf.flipped != f.flipped))).filter
              (fun e => decide (e.1 = m.number))
          = [(m.number, cf.flipped != m.flipped)] := by
  have hne : frame_sets.isEmpty = false := by
    cases frame_sets
    · cases hG
    · rfl
  have hfs := find_linked_frame_set_eq hwf.2 hG ht
  rcases hcf : G.find? (fun f => decide (f.number = t)) with _ | cf
  · exfalso
    rcases containsNumber_iff.mp ht with ⟨f, hf, hfn⟩
    have := List.find?_eq_none.mp hcf f hf
    simp [hfn] at this
  · have hcfG : cf ∈ G := List.mem_of_find?_eq_some hcf
    have hcft : cf.number = t := by simpa using List.find?_some hcf
    refine ⟨cf, hcfG, hcft, ?_, ?_⟩
    · simp [save_pre_sync, hne, hfs, hcf]
    · intro m hm hmt
      have hndG : NodupNumbers G := hwf.1 G hG
      rw [List.filter_map]
      have hcomp : ((fun (e : Int × Bool) => decide (e.1 = m.number))
            ∘ (fun (f : LinkedFrame) => (f.number, cf.flipped != f.flipped)))
          = fun (f : LinkedFrame) => decide (f.number = m.number) := rfl
      rw [hcomp, List.filter_filter]
      have hpred : ∀ f ∈ G,
          (decide (f.number = m.number) && decide (f.number ≠ t))
            = decide (f.number = m.number) := by
        intro f _
        rcases Decidable.em (f.number = m.number) with he | he
        · simp [he, hmt]
        · simp [he]
      rw [List.filter_congr hpred, filter_number_eq_singleton hndG hm]
      rfl

/-- Witness for C1 at the spec's scenario: group
`{10:false, 20:true, 30:false}`, trigger 10 — paste at 20 mirrored,
paste at 30 unmirrored, on both channels, playhead back at 10. -/
theorem c1_sync_propagation_witness :
    WF [[⟨10, false⟩, ⟨20, true⟩, ⟨30, false⟩]] ∧
    save_pre_sync [[⟨10, false⟩, ⟨20, true⟩, ⟨30, false⟩]] 10
      = some ⟨[(20, true), (30, false)], [(20, true), (30, false)], 10⟩ := by
  constructor
  · decide
  · rcases c1_sync_propagation [[⟨10, false⟩, ⟨20, true⟩, ⟨30, false⟩]]
        [⟨10, false⟩, ⟨20, true⟩, ⟨30, false⟩] 10 (by decide) (by decide) (by decide)
      with ⟨cf, hcf, hnum, heq, _⟩
    have hcfeq : cf = ⟨10, false⟩ := by
      simp only [List.mem_cons, List.not_mem_nil, or_false] at hcf
      rcases hcf with h | h | h
      · exact h
      · rw [h] at hnum
        simp at hnum
      · rw [h] at hnum
        simp at hnum
    rw [hcfeq] at heq
    exact heq.trans (by decide)

/-- C2: linking target positions none of which belongs to an existing
group appends exactly one new group, leaves the existing groups
unchanged, and the new group consists of the targets in ascending
order with alternating flags starting at false. -/
theorem c2_link_fresh_group (frame_sets : FrameSets) (ns : List Int)
    (hne : ns ≠ []) (hnd : ns.Nodup)
    (huntouched : ∀ s ∈ frame_sets, touchedBy s ns = false) :
    ∃ g : FrameSet,
      link_frames frame_sets ns = frame_sets ++ [g] ∧
      g.map (fun f => f.number) = List.insertionSort (· ≤ ·) ns ∧
      ∀ (i : Nat) (h : i < g.length), (g.get ⟨i, h⟩).flipped = decide (i % 2 = 1) := by
  have h0 : find_linked_frame_sets frame_sets ns = [] :=
    find_linked_frame_sets_eq_nil_iff.mpr huntouched
  have hsortnd : (List.insertionSort (· ≤ ·) ns).Nodup :=
    (List.perm_insertionSort (· ≤ ·) ns).nodup_iff.mpr hnd
  refine ⟨altList false (List.insertionSort (· ≤ ·) ns), ?_, ?_, ?_⟩
  · rw [link_frames_zero hne h0, link_new_set_eq hsortnd]
  · exact altList_map_number false _
  · intro i h
    have := altList_get_flipped (List.insertionSort (· ≤ ·) ns) false i h
    simpa using this

/-- Witness for C2: linking {10, 20, 30} into the empty partition
yields the single group (10,false),(20,true),(30,false). -/
theorem c2_link_fresh_group_witness :
    (([10, 20, 30] : List Int) ≠ [] ∧ ([10, 20, 30] : List Int).Nodup) ∧
    (∃ g : FrameSet,
      link_frames [] [10, 20, 30] = [] ++ [g] ∧
      g.map (fun f => f.number) = List.insertionSort (· ≤ ·) [10, 20, 30] ∧
      ∀ (i : Nat) (h : i < g.length), (g.get ⟨i, h⟩).flipped = decide (i % 2 = 1)) ∧
    link_frames [] [10, 20, 30] = [[⟨10, false⟩, ⟨20, true⟩, ⟨30, false⟩]] := by
  refine ⟨⟨by decide, by decide⟩, ?_, by decide⟩
  exact c2_link_fresh_group [] [10, 20, 30] (by decide) (by decide)
    (fun s hs => absurd hs (List.not_mem_nil s))

/-- C6: decoding the encoded form of a partition whose groups all have
at least two members (and are genuine sets over positions) gives the
partition back, group for group and member for member. -/
theorem c6_roundtrip (frame_sets : FrameSets) (old : Option PropValue)
    (hnd : ∀ s ∈ frame_sets, NodupNumbers s)
    (hbig : ∀ s ∈ frame_sets, 2 ≤ s.length) :
    get_frame_sets_for_action (set_frame_sets_for_action old frame_sets) = frame_sets := by
  have hfilter : frame_sets.filter (fun s => decide (1 < s.length)) = frame_sets := by
    refine List.filter_eq_self.mpr ?_
    intro s hs
    have := hbig s hs
    simp
    omega
  have henc : set_frame_sets_for_action old frame_sets
      = if (frame_sets.map encodeFrameSet).isEmpty then none
        else some (frame_sets.map encodeFrameSet) := by
    simp only [set_frame_sets_for_action, hfilter]
  rcases hb : (frame_sets.map encodeFrameSet).isEmpty with hbf | hbt
  · have hsome : set_frame_sets_for_action old frame_sets
        = some (frame_sets.map encodeFrameSet) := by
      rw [henc, hb]
      simp
    rw [hsome]
    unfold get_frame_sets_for_action
    show (frame_sets.map encodeFrameSet).map decodeFrameSet = frame_sets
    rw [List.map_map]
    have hpt : ∀ s ∈ frame_sets, (decodeFrameSet ∘ encodeFrameSet) s = (id s : FrameSet) := by
      intro s hs
      show decodeFrameSet (encodeFrameSet s) = s
      exact decodeFrameSet_encodeFrameSet (hnd s hs)
    rw [List.map_congr_left hpt, List.map_id]
  · have hnil : frame_sets = [] := by
      have := List.isEmpty_iff.mp hb
      exact List.map_eq_nil_iff.mp this
    rw [hnil]
    rfl

/-- Witness for C6 at the two-group partition
[[(10,false),(20,true)], [(5,false),(7,false),(9,false)]]. -/
theorem c6_roundtrip_witness :
    (∀ s ∈ ([[⟨10, false⟩, ⟨20, true⟩], [⟨5, false⟩, ⟨7, false⟩, ⟨9, false⟩]] : FrameSets),
        NodupNumbers s ∧ 2 ≤ s.length) ∧
    get_frame_sets_for_action
        (set_frame_sets_for_action none
          [[⟨10, false⟩, ⟨20, true⟩], [⟨5, false⟩, ⟨7, false⟩, ⟨9, false⟩]])
      = [[⟨10, false⟩, ⟨20, true⟩], [⟨5, false⟩, ⟨7, false⟩, ⟨9, false⟩]] := by
  refine ⟨by decide, ?_⟩
  exact c6_roundtrip [[⟨10, false⟩, ⟨20, true⟩], [⟨5, false⟩, ⟨7, false⟩, ⟨9, false⟩]] none
    (by decide) (by decide)

/-- C9: encode stores exactly the groups with at least two members and
never an empty sequence; when no group qualifies, the stored value is
removed (the result is absent whatever was stored before). -/
theorem c9_encode_filtering (frame_sets : FrameSets) (old : Option PropValue) :
    (∀ l, set_frame_sets_for_action old frame_sets = some l →
        l = (frame_sets.filter (fun s => decide (1 < s.length))).map encodeFrameSet ∧
        l ≠ [] ∧
        ∀ t ∈ l, ∃ s ∈ frame_sets, 2 ≤ s.length ∧ t = encodeFrameSet s) ∧
    ((∀ s ∈ frame_sets, s.length ≤ 1) → set_frame_sets_for_action old frame_sets = none) := by
  constructor
  · intro l hl
    rcases hb : ((frame_sets.filter (fun s => decide (1 < s.length))).map encodeFrameSet).isEmpty
      with hbf | hbt
    · have hl2 : set_frame_sets_for_action old frame_sets
          = some ((frame_sets.filter (fun s => decide (1 < s.length))).map encodeFrameSet) := by
        simp only [set_frame_sets_for_action, hb]
        simp
      rw [hl2] at hl
      have hleq := Option.some_inj.mp hl
      refine ⟨hleq.symm, ?_, ?_⟩
      · rw [← hleq]
        intro hcontra
        rw [hcontra] at hb
        cases hb
      · intro t ht
        rw [← hleq] at ht
        rcases List.mem_map.mp ht with ⟨s, hs, hst⟩
        rcases List.mem_filter.mp hs with ⟨hsfs, hslen⟩
        refine ⟨s, hsfs, ?_, hst.symm⟩
        have := of_decide_eq_true hslen
        omega
    · exfalso
      have hnone : set_frame_sets_for_action old frame_sets = none := by
        simp [set_frame_sets_for_action, hb]
      rw [hnone] at hl
      cases hl
  · intro hsmall
    have hfnil : frame_sets.filter (fun s => decide (1 < s.length)) = [] := by
      rw [List.filter_eq_nil_iff]
      intro s hs
      have := hsmall s hs
      simp
      omega
    simp only [set_frame_sets_for_action, hfnil]
    rfl

/-- Witness for C9: a partition holding only a singleton group encodes
to "no value" even when a value was stored before. -/
theorem c9_encode_filtering_witness :
    set_frame_sets_for_action (some [[(1, 0), (2, 0)]]) [[⟨3, false⟩]] = none :=
  (c9_encode_filtering [[⟨3, false⟩]] (some [[(1, 0), (2, 0)]])).2 (by decide)

/-- C10: when an inner persisted sequence has several entries at one
position, the decoded group keeps a single member at that position,
carrying the flag of the first such entry. -/
theorem c10_decode_dedup (prop : PropValue) (l : List PropEntry) (p : Int)
    (e₀ : PropEntry) (hl : l ∈ prop)
    (_hdup : 2 ≤ (l.filter (fun e => decide (e.1 = p))).length)
    (hfind : l.find? (fun e => decide (e.1 = p)) = some e₀) :
    ∃ g ∈ get_frame_sets_for_action (some prop),
      g.filter (fun f => decide (f.number = p)) = [⟨p, decide (e₀.2 ≠ 0)⟩] := by
  refine ⟨decodeFrameSet l, ?_, ?_⟩
  · unfold get_frame_sets_for_action
    simpa using List.mem_map_of_mem decodeFrameSet hl
  · unfold decodeFrameSet
    exact decode_filter_of_find l [] p e₀ (by simp [containsNumber]) hfind

/-- Witness for C10: the sequence [(5,0),(5,1)] decodes to the single
member (5,false) — the second entry's flag is ignored. -/
theorem c10_decode_dedup_witness :
    (2 ≤ (([((5 : Int), (0 : Int)), (5, 1)]).filter (fun e => decide (e.1 = 5))).length) ∧
    ∃ g ∈ get_frame_sets_for_action (some [[(5, 0), (5, 1)]]),
      g.filter (fun f => decide (f.number = 5)) = [⟨5, false⟩] := by
  refine ⟨by decide, ?_⟩
  exact c10_decode_dedup [[(5, 0), (5, 1)]] [(5, 0), (5, 1)] 5 (5, 0)
    (by decide) (by decide) (by decide)

/-- C4 counterexample: unlinking {10} from the partition
[{5}, {10,20}] also drops the untouched singleton group {5} — the
size-≤-1 sweep runs over the whole partition, so an untouched group is
not necessarily left in place and the claim fails as stated. -/
theorem c4_unlink_counterexample :
    unlink_execute [[⟨5, false⟩], [⟨10, false⟩, ⟨20, false⟩]] [10] = ([], true) ∧
    touchedBy [⟨5, false⟩] [10] = false ∧
    [⟨5, false⟩] ∈ ([[⟨5, false⟩], [⟨10, false⟩, ⟨20, false⟩]] : FrameSets) ∧
    [⟨5, false⟩] ∉ (unlink_execute [[⟨5, false⟩], [⟨10, false⟩, ⟨20, false⟩]] [10]).1 := by
  decide

/-- C4 (amended): when at least one group is touched, unlink removes
from each touched group exactly the members at target positions, then
drops from the whole partition every group — touched or not — whose
size is now ≤ 1; untouched groups that have at least two members are
left unaffected. -/
theorem c4_unlink_amended (frame_sets : FrameSets) (ns : List Int)
    (h : ∃ s ∈ frame_sets, touchedBy s ns = true) :
    (unlink_execute frame_sets ns).2 = true ∧
    (unlink_execute frame_sets ns).1
      = (frame_sets.map (fun s =>
            if touchedBy s ns then s.filter (fun f => ! ns.contains f.number) else s)).filter
          (fun s => decide (1 < s.length)) ∧
    ∀ s ∈ frame_sets, touchedBy s ns = false → 1 < s.length →
      s ∈ (unlink_execute frame_sets ns).1 := by
  have hfound : 0 < (find_linked_frame_sets frame_sets ns).length := by
    rcases h with ⟨s, hs, hts⟩
    have hmem : s ∈ find_linked_frame_sets frame_sets ns := List.mem_filter.mpr ⟨hs, hts⟩
    exact List.length_pos.mpr (List.ne_nil_of_mem hmem)
  have hunlink : unlink_execute frame_sets ns
      = (remove_all_in_place (fun s => decide (s.length ≤ 1))
          (frame_sets.map
            (fun s => if touchedBy s ns then remove_all_from_frame_set s ns else s)),
         true) := by
    unfold unlink_execute
    simp [hfound]
  have hmap : frame_sets.map
        (fun s => if touchedBy s ns then remove_all_from_frame_set s ns else s)
      = frame_sets.map
        (fun s => if touchedBy s ns then s.filter (fun f => ! ns.contains f.number) else s) := by
    refine List.map_congr_left ?_
    intro s _
    rw [remove_all_from_frame_set_eq]
  have hfilt : ∀ l : FrameSets,
      remove_all_in_place (fun s => decide (s.length ≤ 1)) l
        = l.filter (fun s => decide (1 < s.length)) := by
    intro l
    unfold remove_all_in_place
    refine List.filter_congr ?_
    intro s _
    rcases Nat.lt_or_ge 1 s.length with h1 | h1
    · simp [h1, Nat.not_le.mpr h1]
    · have h2 : s.length ≤ 1 := h1
      simp [h2, Nat.not_lt.mpr h2]
  have hres : (unlink_execute frame_sets ns).1
      = (frame_sets.map (fun s =>
            if touchedBy s ns then s.filter (fun f => ! ns.contains f.number) else s)).filter
          (fun s => decide (1 < s.length)) := by
    rw [hunlink]
    show remove_all_in_place (fun s => decide (s.length ≤ 1))
        (frame_sets.map
          (fun s => if touchedBy s ns then remove_all_from_frame_set s ns else s)) = _
    rw [hmap, hfilt]
  refine ⟨by rw [hunlink], hres, ?_⟩
  intro s hs hst hlen
  rw [hres]
  refine List.mem_filter.mpr ⟨?_, by simpa using hlen⟩
  have := List.mem_map_of_mem
    (fun s => if touchedBy s ns then s.filter (fun f => ! ns.contains f.number) else s) hs
  simpa [hst] using this

/-- Witness for the amended C4: unlinking {20} from
[{10,20,30}, {40,50}] leaves {40,50} intact and shrinks the touched
group to {10,30}. -/
theorem c4_unlink_amended_witness :
    (∃ s ∈ ([[⟨10, false⟩, ⟨20, true⟩, ⟨30, false⟩], [⟨40, false⟩, ⟨50, true⟩]] : FrameSets),
        touchedBy s [20] = true) ∧
    [⟨40, false⟩, ⟨50, true⟩]
      ∈ (unlink_execute [[⟨10, false⟩, ⟨20, true⟩, ⟨30, false⟩], [⟨40, false⟩, ⟨50, true⟩]]
          [20]).1 := by
  refine ⟨⟨[⟨10, false⟩, ⟨20, true⟩, ⟨30, false⟩], by decide, by decide⟩, ?_⟩
  exact (c4_unlink_amended [[⟨10, false⟩, ⟨20, true⟩, ⟨30, false⟩], [⟨40, false⟩, ⟨50, true⟩]]
      [20] ⟨[⟨10, false⟩, ⟨20, true⟩, ⟨30, false⟩], by decide, by decide⟩).2.2
    [⟨40, false⟩, ⟨50, true⟩] (by decide) (by decide) (by decide)

/-- C5: flip toggles exactly the members whose position is a target
found in some group (all other members and groups are unchanged), the
returned flip count equals the number of targets found in some group,
and a zero count means the partition is untouched and nothing is
saved. -/
theorem c5_flip_toggles (frame_sets : FrameSets) (ns : List Int) (old : Option PropValue)
    (h1 : ∀ s ∈ frame_sets, NodupNumbers s) (h2 : DisjointSets frame_sets)
    (hnd : ns.Nodup) :
    (flip_execute old frame_sets ns).frame_sets
        = frame_sets.map (fun s => s.map (toggleIn ns)) ∧
    (flip_execute old frame_sets ns).flip_count
        = (ns.filter (fun n => frame_sets.any (fun s => containsNumber s n))).length ∧
    ((flip_execute old frame_sets ns).flip_count = 0 →
      (flip_execute old frame_sets ns).frame_sets = frame_sets ∧
      (flip_execute old frame_sets ns).saved = none) := by
  have hr := flip_frames_eq h1 h2 hnd
  have e1 : (flip_execute old frame_sets ns).frame_sets = (flip_frames frame_sets ns).1 := rfl
  have e2 : (flip_execute old frame_sets ns).flip_count = (flip_frames frame_sets ns).2 := rfl
  have e3 : (flip_execute old frame_sets ns).saved
      = (if 0 < (flip_frames frame_sets ns).2
          then some (set_frame_sets_for_action old (flip_frames frame_sets ns).1)
          else none) := rfl
  refine ⟨by rw [e1, hr], by rw [e2, hr], ?_⟩
  intro hz
  have hzf : (flip_frames frame_sets ns).2 = 0 := by
    rw [← e2]
    exact hz
  have hfilterz : (ns.filter (fun n => frame_sets.any (fun s => containsNumber s n))).length = 0 := by
    rw [← hzf, hr]
  have hnil : ns.filter (fun n => frame_sets.any (fun s => containsNumber s n)) = [] :=
    List.length_eq_zero.mp hfilterz
  have hnone : ∀ n ∈ ns, frame_sets.any (fun s => containsNumber s n) = false := by
    intro n hn
    have := List.filter_eq_nil_iff.mp hnil n hn
    simpa using this
  constructor
  · rw [e1, hr]
    have hpt : ∀ s ∈ frame_sets, s.map (toggleIn ns) = (id s : FrameSet) := by
      intro s hs
      have hmem : ∀ f ∈ s, toggleIn ns f = (id f : LinkedFrame) := by
        intro f hf
        have hfn : ns.contains f.number = false := by
          rcases hcn : ns.contains f.number with hcf | hct
          · rfl
          · exfalso
            have hfIn : f.number ∈ ns := by simpa using hcn
            have hcs : containsNumber s f.number = true :=
              containsNumber_iff.mpr ⟨f, hf, rfl⟩
            have hany : frame_sets.any (fun t => containsNumber t f.number) = true :=
              List.any_eq_true.mpr ⟨s, hs, hcs⟩
            rw [hnone f.number hfIn] at hany
            cases hany
        have hm : f.number ∉ ns := by simpa using hfn
        simp [toggleIn, hm]
      show s.map (toggleIn ns) = s
      rw [List.map_congr_left hmem, List.map_id]
    rw [List.map_congr_left hpt, List.map_id]
  · rw [e3, hzf]
    rfl

/-- Witness for C5: flipping {10, 99} on [{10,20}] toggles only the
member at 10 (99 is unlinked), counts one flip, and saves; flipping
{99} alone counts zero, changes nothing and saves nothing. -/
theorem c5_flip_toggles_witness :
    (flip_execute none [[⟨10, false⟩, ⟨20, true⟩]] [99]).flip_count = 0 ∧
    (flip_execute none [[⟨10, false⟩, ⟨20, true⟩]] [99]).frame_sets
      = [[⟨10, false⟩, ⟨20, true⟩]] ∧
    (flip_execute none [[⟨10, false⟩, ⟨20, true⟩]] [99]).saved = none ∧
    (flip_execute none [[⟨10, false⟩, ⟨20, true⟩]] [10, 99]).flip_count = 1 ∧
    (flip_execute none [[⟨10, false⟩, ⟨20, true⟩]] [10, 99]).frame_sets
      = [[⟨10, true⟩, ⟨20, true⟩]] := by
  have h := c5_flip_toggles [[⟨10, false⟩, ⟨20, true⟩]] [99] none
    (by decide) (by decide) (by decide)
  have hcount : (flip_execute none [[⟨10, false⟩, ⟨20, true⟩]] [99]).flip_count = 0 := by
    rw [h.2.1]
    decide
  have hz := h.2.2 hcount
  exact ⟨hcount, hz.1, hz.2, by decide, by decide⟩

/-- C3: when the targets touch two or more groups, link removes all
touched groups, keeps every untouched group, and appends exactly one
new group whose members are the members of the touched groups (each
with its existing flag) together with every target position not
already present in those groups, added with flag false. -/
theorem c3_link_merge (frame_sets : FrameSets) (ns : List Int)
    (hwf : WF frame_sets) (hne : ns ≠ []) (hnd : ns.Nodup)
    (htwo : 2 ≤ (find_linked_frame_sets frame_sets ns).length) :
    ∃ u : FrameSet,
      link_frames frame_sets ns
        = (frame_sets.filter (fun s => ! touchedBy s ns)) ++ [u] ∧
      ∀ f : LinkedFrame,
        f ∈ u ↔
          ((∃ s ∈ frame_sets, touchedBy s ns = true ∧ f ∈ s) ∨
           (f.flipped = false ∧ f.number ∈ ns ∧
             ∀ s ∈ frame_sets, touchedBy s ns = true → ∀ g ∈ s, g.number ≠ f.number)) := by
  have hfoundnd : ∀ s ∈ find_linked_frame_sets frame_sets ns, NodupNumbers s := by
    intro s hs
    exact hwf.1 s (List.mem_filter.mp hs).1
  have hfoundpw : (find_linked_frame_sets frame_sets ns).Pairwise
      (fun s t => ∀ f ∈ s, ∀ g ∈ t, f.number ≠ g.number) :=
    hwf.2.sublist (List.filter_sublist frame_sets)
  have hunion : unionOfSets (find_linked_frame_sets frame_sets ns)
      = (find_linked_frame_sets frame_sets ns).flatten :=
    unionOfSets_eq_flatten hfoundnd hfoundpw
  refine ⟨addNumbers (unionOfSets (find_linked_frame_sets frame_sets ns)) ns,
    link_frames_merge hne htwo, ?_⟩
  intro f
  rw [mem_addNumbers_iff hnd, hunion]
  constructor
  · rintro (hf | ⟨hfl, hfn, hnc⟩)
    · rcases List.mem_flatten.mp hf with ⟨s, hs, hfs⟩
      rcases List.mem_filter.mp hs with ⟨hsfs, hst⟩
      exact Or.inl ⟨s, hsfs, hst, hfs⟩
    · refine Or.inr ⟨hfl, hfn, ?_⟩
      intro s hsfs hst g hg he
      have hgfl : g ∈ (find_linked_frame_sets frame_sets ns).flatten :=
        List.mem_flatten.mpr ⟨s, List.mem_filter.mpr ⟨hsfs, hst⟩, hg⟩
      exact containsNumber_eq_false_iff.mp hnc g hgfl he
  · rintro (⟨s, hsfs, hst, hfs⟩ | ⟨hfl, hfn, hnotin⟩)
    · exact Or.inl (List.mem_flatten.mpr ⟨s, List.mem_filter.mpr ⟨hsfs, hst⟩, hfs⟩)
    · refine Or.inr ⟨hfl, hfn, ?_⟩
      rw [containsNumber_eq_false_iff]
      intro g hg he
      rcases List.mem_flatten.mp hg with ⟨s, hs, hgs⟩
      rcases List.mem_filter.mp hs with ⟨hsfs, hst⟩
      exact hnotin s hsfs hst g hgs he

/-- Witness for C3: linking {2, 5, 9} over
[{1,2}, {5,6}] merges both touched groups and adds 9 fresh; the
resulting partition is the single merged group, and member (1,false)
of the first touched group indeed sits in it. -/
theorem c3_link_merge_witness :
    (2 ≤ (find_linked_frame_sets [[⟨1, false⟩, ⟨2, true⟩], [⟨5, false⟩, ⟨6, false⟩]]
        [2, 5, 9]).length) ∧
    (∃ u : FrameSet,
      link_frames [[⟨1, false⟩, ⟨2, true⟩], [⟨5, false⟩, ⟨6, false⟩]] [2, 5, 9]
        = (([[⟨1, false⟩, ⟨2, true⟩], [⟨5, false⟩, ⟨6, false⟩]] : FrameSets).filter
            (fun s => ! touchedBy s [2, 5, 9])) ++ [u] ∧
      ∀ f : LinkedFrame,
        f ∈ u ↔
          ((∃ s ∈ ([[⟨1, false⟩, ⟨2, true⟩], [⟨5, false⟩, ⟨6, false⟩]] : FrameSets),
              touchedBy s [2, 5, 9] = true ∧ f ∈ s) ∨
           (f.flipped = false ∧ f.number ∈ ([2, 5, 9] : List Int) ∧
             ∀ s ∈ ([[⟨1, false⟩, ⟨2, true⟩], [⟨5, false⟩, ⟨6, false⟩]] : FrameSets),
               touchedBy s [2, 5, 9] = true → ∀ g ∈ s, g.number ≠ f.number))) ∧
    link_frames [[⟨1, false⟩, ⟨2, true⟩], [⟨5, false⟩, ⟨6, false⟩]] [2, 5, 9]
      = [[⟨1, false⟩, ⟨2, true⟩, ⟨5, false⟩, ⟨6, false⟩, ⟨9, false⟩]] := by
  refine ⟨by decide, ?_, by decide⟩
  exact c3_link_merge [[⟨1, false⟩, ⟨2, true⟩], [⟨5, false⟩, ⟨6, false⟩]] [2, 5, 9]
    (by decide) (by decide) (by decide) (by decide)

/-- C8: when the targets touch exactly one group, link turns that
group into itself plus each not-yet-present target with flag false,
leaving all other groups alone; and in every branch, link keeps every
existing member record (position and flag) somewhere in the result, so
no existing flag is ever changed. -/
theorem c8_link_one_touched (frame_sets : FrameSets) (ns : List Int)
    (hwf : WF frame_sets) (hne : ns ≠ []) (hnd : ns.Nodup) :
    ((find_linked_frame_sets frame_sets ns).length = 1 →
      link_frames frame_sets ns
        = frame_sets.map (fun s => if touchedBy s ns then addNumbers s ns else s) ∧
      ∀ s ∈ frame_sets, touchedBy s ns = true →
        ∀ f : LinkedFrame,
          f ∈ addNumbers s ns ↔
            (f ∈ s ∨ (f.flipped = false ∧ f.number ∈ ns ∧ containsNumber s f.number = false))) ∧
    (∀ g ∈ frame_sets, ∀ f ∈ g, ∃ gg ∈ link_frames frame_sets ns, f ∈ gg) := by
  constructor
  · intro hone
    refine ⟨link_frames_one hne hone, ?_⟩
    intro s _ _ f
    exact mem_addNumbers_iff hnd
  · intro g hg f hf
    rcases hcase : (find_linked_frame_sets frame_sets ns).length with _ | k
    · have h0 : find_linked_frame_sets frame_sets ns = [] := List.length_eq_zero.mp hcase
      rw [link_frames_zero hne h0]
      exact ⟨g, List.mem_append_left _ hg, hf⟩
    · rcases k with _ | k2
      · rw [link_frames_one hne hcase]
        rcases htb : touchedBy g ns with htf | htt
        · refine ⟨g, ?_, hf⟩
          have := List.mem_map_of_mem
            (fun s => if touchedBy s ns then addNumbers s ns else s) hg
          simpa [htb] using this
        · refine ⟨addNumbers g ns, ?_, mem_addNumbers_of_mem ns hf⟩
          have := List.mem_map_of_mem
            (fun s => if touchedBy s ns then addNumbers s ns else s) hg
          simpa [htb] using this
      · have h2 : 2 ≤ (find_linked_frame_sets frame_sets ns).length := by
          rw [hcase]
          omega
        rw [link_frames_merge hne h2]
        rcases htb : touchedBy g ns with htf | htt
        · refine ⟨g, List.mem_append_left _ ?_, hf⟩
          refine List.mem_filter.mpr ⟨hg, ?_⟩
          simp [htb]
        · have hfoundnd : ∀ s ∈ find_linked_frame_sets frame_sets ns, NodupNumbers s := by
            intro s hs
            exact hwf.1 s (List.mem_filter.mp hs).1
          have hfoundpw : (find_linked_frame_sets frame_sets ns).Pairwise
              (fun s t => ∀ a ∈ s, ∀ b ∈ t, a.number ≠ b.number) :=
            hwf.2.sublist (List.filter_sublist frame_sets)
          have hunion : unionOfSets (find_linked_frame_sets frame_sets ns)
              = (find_linked_frame_sets frame_sets ns).flatten :=
            unionOfSets_eq_flatten hfoundnd hfoundpw
          refine ⟨addNumbers (unionOfSets (find_linked_frame_sets frame_sets ns)) ns,
            List.mem_append_right _ (by simp), ?_⟩
          apply mem_addNumbers_of_mem
          rw [hunion]
          exact List.mem_flatten.mpr ⟨g, List.mem_filter.mpr ⟨hg, htb⟩, hf⟩

/-- Witness for C8: linking {20, 40} into [{10,20,30}] (one touched
group) adds only (40,false) and keeps every existing flag. -/
theorem c8_link_one_touched_witness :
    ((find_linked_frame_sets [[⟨10, false⟩, ⟨20, true⟩, ⟨30, false⟩]] [20, 40]).length = 1) ∧
    link_frames [[⟨10, false⟩, ⟨20, true⟩, ⟨30, false⟩]] [20, 40]
      = ([[⟨10, false⟩, ⟨20, true⟩, ⟨30, false⟩]] : FrameSets).map
          (fun s => if touchedBy s [20, 40] then addNumbers s [20, 40] else s) ∧
    link_frames [[⟨10, false⟩, ⟨20, true⟩, ⟨30, false⟩]] [20, 40]
      = [[⟨10, false⟩, ⟨20, true⟩, ⟨30, false⟩, ⟨40, false⟩]] ∧
    (∃ gg ∈ link_frames [[⟨10, false⟩, ⟨20, true⟩, ⟨30, false⟩]] [20, 40],
      (⟨20, true⟩ : LinkedFrame) ∈ gg) := by
  have h := c8_link_one_touched [[⟨10, false⟩, ⟨20, true⟩, ⟨30, false⟩]] [20, 40]
    (by decide) (by decide) (by decide)
  refine ⟨by decide, (h.1 (by decide)).1, by decide, ?_⟩
  exact h.2 [⟨10, false⟩, ⟨20, true⟩, ⟨30, false⟩] (by decide) ⟨20, true⟩ (by decide)

theorem mem_altList_number : ∀ {f : LinkedFrame} {b : Bool} {l : List Int},
    f ∈ altList b l → f.number ∈ l := by
  intro f b l
  induction l generalizing b with
  | nil =>
    intro h
    cases h
  | cons n rest ih =>
    intro h
    rcases List.mem_cons.mp h with he | he
    · rw [he]
      simp
    · exact List.mem_cons_of_mem n (ih he)

theorem number_toggleIn (ns : List Int) (f : LinkedFrame) :
    (toggleIn ns f).number = f.number := by
  unfold toggleIn
  split <;> rfl

theorem disjointSets_map_toggleIn {frame_sets : FrameSets} (ns : List Int)
    (h : DisjointSets frame_sets) :
    DisjointSets (frame_sets.map (fun s => s.map (toggleIn ns))) := by
  unfold DisjointSets at h ⊢
  rw [List.pairwise_map]
  refine h.imp ?_
  intro s t hst a ha b hb
  rcases List.mem_map.mp ha with ⟨f, hf, hfa⟩
  rcases List.mem_map.mp hb with ⟨g, hg, hgb⟩
  rw [← hfa, ← hgb, number_toggleIn, number_toggleIn]
  exact hst f hf g hg

theorem pairwise_and_of {l : FrameSets} {R S : FrameSet → FrameSet → Prop}
    (hR : l.Pairwise R) (hS : l.Pairwise S) :
    l.Pairwise (fun a b => R a b ∧ S a b) := by
  induction l with
  | nil => exact List.Pairwise.nil
  | cons a rest ih =>
    rcases List.pairwise_cons.mp hR with ⟨hRa, hRr⟩
    rcases List.pairwise_cons.mp hS with ⟨hSa, hSr⟩
    exact List.pairwise_cons.mpr ⟨fun b hb => ⟨hRa b hb, hSa b hb⟩, ih hRr hSr⟩

theorem pairwise_not_both_of_filter_length_le_one :
    ∀ {l : FrameSets} {p : FrameSet → Bool}, (l.filter p).length ≤ 1 →
      l.Pairwise (fun a b => ¬(p a = true ∧ p b = true)) := by
  intro l
  induction l with
  | nil =>
    intro p _
    exact List.Pairwise.nil
  | cons a rest ih =>
    intro p hlen
    rcases hp : p a with hpf | hpt
    · rw [List.filter_cons_of_neg (by simp [hp])] at hlen
      refine List.pairwise_cons.mpr ⟨?_, ih hlen⟩
      intro b _ hcontra
      rw [hp] at hcontra
      cases hcontra.1
    · rw [List.filter_cons_of_pos (by simp [hp])] at hlen
      have hrest : (rest.filter p).length = 0 := by
        rw [List.length_cons] at hlen
        omega
      have hrestnil : rest.filter p = [] := List.length_eq_zero.mp hrest
      have hnone : ∀ b ∈ rest, p b = false := by
        intro b hb
        have := List.filter_eq_nil_iff.mp hrestnil b hb
        simpa using this
      refine List.pairwise_cons.mpr ⟨?_, ih (by rw [hrestnil]; simp)⟩
      intro b hb hcontra
      rw [hnone b hb] at hcontra
      cases hcontra.2

/-- C7: starting from a well-formed partition (each group a set over
positions, groups pairwise disjoint over positions), the partitions
produced by link, unlink and flip on any non-empty target set are
again pairwise disjoint over positions. -/
theorem c7_disjointness_preserved (frame_sets : FrameSets) (ns : List Int)
    (hwf : WF frame_sets) (hne : ns ≠ []) (hnd : ns.Nodup) :
    DisjointSets (link_frames frame_sets ns) ∧
    DisjointSets ((unlink_execute frame_sets ns).1) ∧
    DisjointSets ((flip_frames frame_sets ns).1) := by
  refine ⟨?_, ?_, ?_⟩
  · rcases hcase : (find_linked_frame_sets frame_sets ns).length with _ | k
    · have h0 : find_linked_frame_sets frame_sets ns = [] := List.length_eq_zero.mp hcase
      rw [link_frames_zero hne h0]
      unfold DisjointSets
      rw [List.pairwise_append]
      refine ⟨hwf.2, by simp, ?_⟩
      intro s hs g hg
      have hgeq : g = link_new_set (List.insertionSort (· ≤ ·) ns) := List.mem_singleton.mp hg
      subst hgeq
      intro f hfs m hm
      have hsortnd : (List.insertionSort (· ≤ ·) ns).Nodup :=
        (List.perm_insertionSort (· ≤ ·) ns).nodup_iff.mpr hnd
      rw [link_new_set_eq hsortnd] at hm
      have hmn : m.number ∈ ns :=
        (List.perm_insertionSort (· ≤ ·) ns).mem_iff.mp (mem_altList_number hm)
      have huntouched := find_linked_frame_sets_eq_nil_iff.mp h0 s hs
      have hnotin := touchedBy_eq_false_iff.mp huntouched f hfs
      intro he
      exact hnotin (he ▸ hmn)
    · rcases k with _ | k2
      · rw [link_frames_one hne hcase]
        unfold DisjointSets
        rw [List.pairwise_map]
        have hone : (frame_sets.filter (fun s => touchedBy s ns)).length ≤ 1 := by
          have : find_linked_frame_sets frame_sets ns
              = frame_sets.filter (fun s => touchedBy s ns) := rfl
          rw [← this, hcase]
        have hcomb := pairwise_and_of hwf.2 (pairwise_not_both_of_filter_length_le_one hone)
        refine hcomb.imp ?_
        intro s t hst
        rcases hst with ⟨hdisj, hnboth⟩
        rcases hts : touchedBy s ns with htsf | htst
        · rcases htt : touchedBy t ns with httf | httt
          · simpa using hdisj
          · rw [if_neg (by simp), if_pos rfl]
            intro f hf m hm
            rcases mem_addNumbers_elim hm with hmem | hmem
            · exact hdisj f hf m hmem
            · have := touchedBy_eq_false_iff.mp hts f hf
              intro he
              exact this (he ▸ hmem.2)
        · rcases htt : touchedBy t ns with httf | httt
          · rw [if_pos rfl, if_neg (by simp)]
            intro f hf m hm
            rcases mem_addNumbers_elim hf with hmem | hmem
            · exact hdisj f hmem m hm
            · have := touchedBy_eq_false_iff.mp htt m hm
              intro he
              exact this (he ▸ hmem.2)
          · exact absurd ⟨hts, htt⟩ hnboth
      · have h2 : 2 ≤ (find_linked_frame_sets frame_sets ns).length := by
          rw [hcase]
          omega
        rw [link_frames_merge hne h2]
        unfold DisjointSets
        rw [List.pairwise_append]
        refine ⟨hwf.2.sublist (List.filter_sublist frame_sets), by simp, ?_⟩
        intro s hs g hg
        rcases List.mem_filter.mp hs with ⟨hsfs, hsnt⟩
        have hsuntouched : touchedBy s ns = false := by
          rcases hx : touchedBy s ns with h | h
          · rfl
          · rw [hx] at hsnt
            cases hsnt
        have hgeq : g = addNumbers (unionOfSets (find_linked_frame_sets frame_sets ns)) ns :=
          List.mem_singleton.mp hg
        subst hgeq
        intro f hf m hm
        rcases mem_addNumbers_elim hm with hmem | hmem
        · rcases mem_unionOfSets_elim hmem with ⟨t, ht, hmt⟩
          rcases List.mem_filter.mp ht with ⟨htfs, htt⟩
          have hsnet : s ≠ t := by
            intro he
            rw [← he] at htt
            rw [hsuntouched] at htt
            cases htt
          have hsym : Symmetric (fun (a b : FrameSet) =>
              ∀ x ∈ a, ∀ y ∈ b, x.number ≠ y.number) := by
            intro a b hab y hy x hx
            exact (hab x hx y hy).symm
          exact (hwf.2.forall hsym) hsfs htfs hsnet f hf m hmt
        · have := touchedBy_eq_false_iff.mp hsuntouched f hf
          intro he
          exact this (he ▸ hmem.2)
  · unfold unlink_execute
    by_cases hfl : 0 < (find_linked_frame_sets frame_sets ns).length
    · rw [if_pos hfl]
      show DisjointSets (remove_all_in_place (fun s => decide (s.length ≤ 1))
        (frame_sets.map (fun s => if touchedBy s ns then remove_all_from_frame_set s ns else s)))
      have hmapdisj : DisjointSets (frame_sets.map
          (fun s => if touchedBy s ns then remove_all_from_frame_set s ns else s)) := by
        unfold DisjointSets
        rw [List.pairwise_map]
        refine hwf.2.imp ?_
        intro s t hst f hf m hm
        have hfs : f ∈ s := by
          rcases hx : touchedBy s ns with h | h
          · rw [hx] at hf
            simpa using hf
          · rw [hx] at hf
            simp only [if_pos] at hf
            rw [remove_all_from_frame_set_eq] at hf
            exact (List.mem_filter.mp hf).1
        have hmt : m ∈ t := by
          rcases hx : touchedBy t ns with h | h
          · rw [hx] at hm
            simpa using hm
          · rw [hx] at hm
            simp only [if_pos] at hm
            rw [remove_all_from_frame_set_eq] at hm
            exact (List.mem_filter.mp hm).1
        exact hst f hfs m hmt
      exact hmapdisj.sublist (List.filter_sublist _)
    · rw [if_neg hfl]
      exact hwf.2
  · rw [flip_frames_eq hwf.1 hwf.2 hnd]
    exact disjointSets_map_toggleIn ns hwf.2

/-- Witness for C7: the partition [{1,2},{5,6}] stays disjoint under
link, unlink and flip with targets {2, 9}. -/
theorem c7_disjointness_preserved_witness :
    WF [[⟨1, false⟩, ⟨2, true⟩], [⟨5, false⟩, ⟨6, false⟩]] ∧
    (DisjointSets (link_frames [[⟨1, false⟩, ⟨2, true⟩], [⟨5, false⟩, ⟨6, false⟩]] [2, 9]) ∧
     DisjointSets ((unlink_execute [[⟨1, false⟩, ⟨2, true⟩], [⟨5, false⟩, ⟨6, false⟩]] [2, 9]).1) ∧
     DisjointSets ((flip_frames [[⟨1, false⟩, ⟨2, true⟩], [⟨5, false⟩, ⟨6, false⟩]] [2, 9]).1)) := by
  refine ⟨by decide, ?_⟩
  exact c7_disjointness_preserved [[⟨1, false⟩, ⟨2, true⟩], [⟨5, false⟩, ⟨6, false⟩]] [2, 9]
    (by decide) (by decide) (by decide)
